import Mathlib

/-!
Shallow embedding of the AdobeHackathon Challenge 1b pipeline
(`src/main.py`, `src/process_pdfs.py`).

Strings are modelled as Lean `String`s / `List Char`; all helper functions
work on `List Char` and are wrapped into `String` versions.  Python's `\s`
class is modelled by the ASCII whitespace characters that occur in this
pipeline; line separators are modelled as `'\n'` (the only separator the
`re.MULTILINE` anchors recognise, and the one produced by the PDF text
extractor).  Machine floats (font sizes, similarity scores) are modelled
as rationals; the embedding model, FAISS index and PDF renderer are the
spec's external capabilities and are modelled by their observable data.
-/

/-- Python `\s` (ASCII range): space, tab, newline, carriage return,
form feed, vertical tab. -/
def isPyWS (c : Char) : Bool :=
  c = ' ' ∨ c = '\t' ∨ c = '\n' ∨ c = '\r' ∨ c = '\x0c' ∨ c = '\x0b'

/-- Python `str.strip()` on char lists: drop leading and trailing whitespace. -/
def pyStripL (l : List Char) : List Char :=
  (l.dropWhile isPyWS).rdropWhile isPyWS

/-- Python `str.strip()`. -/
def pyStrip (s : String) : String := ⟨pyStripL s.data⟩

/-- Python `s.split('\n')` / `s.splitlines()` on `'\n'`-separated text,
computed on the character list (kernel-reducible, unlike
`String.splitOn`). -/
def strSplitLines (s : String) : List String :=
  (s.data.splitOn '\n').map (fun l => ⟨l⟩)

/-- Python `'\n'.join(ss)`, computed on character lists. -/
def strUnsplitLines (ss : List String) : String :=
  ⟨List.intercalate ['\n'] (ss.map String.data)⟩

/-- The bullet characters of `main.clean_text`'s first substitution,
`re.sub(r'[••\-–]+', '', text)` (`•` is `•`). -/
def isCleanBullet (c : Char) : Bool :=
  c = '•' ∨ c = '-' ∨ c = '–'

/-- Model of `re.sub(r'[••\-–]+', '', text)`: with an empty replacement,
replacing every run of bullet characters is removing every bullet
character. -/
def removeBullets (l : List Char) : List Char :=
  l.filter (fun c => ¬ isCleanBullet c)

/-- Helper for `re.sub(r'\s*\n\s*', ' ', text)`.  Scanning left to right,
each maximal whitespace run that contains at least one `'\n'` is exactly
one match of the (greedy) pattern and is replaced by a single space;
whitespace runs without `'\n'` do not match.  `run` accumulates the
current whitespace run in reverse. -/
def collapseNLAux : List Char → List Char → List Char
  | run, [] => if run.contains '\n' then [' '] else run.reverse
  | run, c :: cs =>
    if isPyWS c then collapseNLAux (c :: run) cs
    else (if run.contains '\n' then [' '] else run.reverse) ++ c :: collapseNLAux [] cs

/-- Model of `re.sub(r'\s*\n\s*', ' ', text)` on char lists. -/
def collapseNL (l : List Char) : List Char := collapseNLAux [] l

/-- Model of `re.sub(r'\s+', ' ', text)`: every maximal whitespace run becomes a
single space.  A space is emitted at the last character of each run. -/
def collapseWS : List Char → List Char
  | [] => []
  | [c] => if isPyWS c then [' '] else [c]
  | c₁ :: c₂ :: cs =>
    if isPyWS c₁ then
      if isPyWS c₂ then collapseWS (c₂ :: cs)
      else ' ' :: collapseWS (c₂ :: cs)
    else c₁ :: collapseWS (c₂ :: cs)

/-- The function `main.clean_text` (src/main.py lines 28-32) on char lists:
remove bullet glyphs, collapse newline-bearing whitespace, collapse
remaining whitespace, strip. -/
def clean_textL (l : List Char) : List Char :=
  pyStripL (collapseWS (collapseNL (removeBullets l)))

/-- The function `main.clean_text` (src/main.py lines 28-32). -/
def clean_text (s : String) : String := ⟨clean_textL s.data⟩

section CombineLines

/-- The bullet class of `combine_lines`' leading-marker substitution
`re.sub(r'^[\s]*[•\-–o]+\s*', '', s, flags=re.MULTILINE)`. -/
def isLineBullet (c : Char) : Bool :=
  c = '•' ∨ c = '-' ∨ c = '–' ∨ c = 'o'

/-- The per-line effect of `re.sub(r'^[\s]*[•\-–o]+\s*', '', s,
flags=re.MULTILINE)`: at the start of a line, greedily skip whitespace;
if at least one bullet character follows, the whitespace, the maximal
bullet run and the following maximal whitespace run are deleted,
otherwise the line is unchanged (the `+` requires one bullet). -/
def stripLineBullets (l : List Char) : List Char :=
  let afterWS := l.dropWhile isPyWS
  match afterWS with
  | [] => l
  | c :: _ =>
    if isLineBullet c then (afterWS.dropWhile isLineBullet).dropWhile isPyWS
    else l

/-- Model of `re.search(r'[.?!:,]$', line)`: the line's last character is terminal
punctuation (lines here contain no `'\n'`, so `$` is end-of-string). -/
def endsTerminal (l : List Char) : Bool :=
  match l.getLast? with
  | some c => c = '.' ∨ c = '?' ∨ c = '!' ∨ c = ':' ∨ c = ','
  | none => false

/-- One step of `combine_lines`' accumulation loop over
`(result, temp)`; `line` is a stripped non-empty line. -/
def combineStep (acc : List (List Char) × List Char) (line : List Char) :
    List (List Char) × List Char :=
  if endsTerminal line then
    if acc.2 ≠ [] then (acc.1 ++ [pyStripL (acc.2 ++ ' ' :: line)], [])
    else (acc.1 ++ [line], [])
  else
    if acc.2 ≠ [] then (acc.1, acc.2 ++ ',' :: ' ' :: line)
    else (acc.1, line)

/-- The loop of `combine_lines` over the preprocessed lines, returning
`(result, temp)` as in the source. -/
def combineFold (lines : List (List Char)) : List (List Char) × List Char :=
  lines.foldl combineStep ([], [])

/-- The stripped, non-empty lines `combine_lines` iterates over:
the bullet substitution, then
`[line.strip() for line in s.splitlines() if line.strip()]`.
The multiline substitution acts independently on each `'\n'`-separated
line, and empty lines are discarded immediately after, so splitting
first is equivalent. -/
def combineLinesList (l : List Char) : List (List Char) :=
  ((l.splitOn '\n').map (fun line => pyStripL (stripLineBullets line))).filter
    (fun line => line ≠ [])

/-- The function `combine_lines` (src/main.py lines 36-62) on char lists:
flush the final fragment (`if temp: result.append(temp.strip())`) and
join with single spaces (`' '.join(result)`). -/
def combine_linesL (l : List Char) : List Char :=
  let fold := combineFold (combineLinesList l)
  let res := if fold.2 ≠ [] then fold.1 ++ [pyStripL fold.2] else fold.1
  (res.intersperse [' ']).flatten

/-- The function `combine_lines` (src/main.py lines 36-62). -/
def combine_lines (s : String) : String := ⟨combine_linesL s.data⟩

end CombineLines

section Sections

/-- A section as built by `extract_sections_from_pdf` before `main`
attaches the document name (`section["document"] = filename`). -/
structure PdfSection where
  title : String
  content : String
  page : Nat
deriving DecidableEq, Repr, Inhabited

/-- The dict `heading_page_map` of src/main.py line 71, built by the
comprehension over `(h[0].strip(), h[1])` pairs, so a later entry with
the same (stripped) text overwrites an earlier one. -/
def headingPageMap (hs : List (String × Nat)) : String → Option Nat :=
  hs.foldl (fun m h => fun k => if k = pyStrip h.1 then some h.2 else m k)
    (fun _ => none)

/-- One iteration of the line scan of `extract_sections_from_pdf`
(src/main.py lines 81-93) over the state `(sections, current_section)`.
`line_stripped in heading_texts` is membership among the dict's keys,
i.e. the lookup succeeding. -/
def extractStep (m : String → Option Nat) (acc : List PdfSection × Option PdfSection)
    (line : String) : List PdfSection × Option PdfSection :=
  let ls := pyStrip line
  match m ls with
  | some p => (acc.1 ++ acc.2.toList, some ⟨ls, "", p⟩)
  | none =>
    match acc.2 with
    | some cur => (acc.1, some { cur with content := cur.content ++ line ++ "\n" })
    | none => acc

/-- The function `extract_sections_from_pdf` (src/main.py lines 65-98), with the
document's linear text given as its list of lines
(`"\n".join(pages).splitlines()`). -/
def extract_sections_from_pdf (headings : List (String × Nat)) (lines : List String) :
    List PdfSection :=
  if headings = [] then []
  else
    let fold := lines.foldl (extractStep (headingPageMap headings)) ([], none)
    fold.1 ++ fold.2.toList

/-- A section after `main` sets `section["document"] = filename`. -/
structure Section where
  document : String
  title : String
  content : String
  page : Nat
deriving DecidableEq, Repr, Inhabited

/-- The string `full_text` of src/main.py line 107 (document, title and content joined by single spaces):
(src/main.py line 107): the text handed to the embedding model. -/
def embedText (s : Section) : String :=
  s.document ++ " " ++ s.title ++ " " ++ s.content

/-- The function `build_faiss_index` (src/main.py lines 102-120).  The embedding model
is an external capability; an embedded vector is represented by the text
it was computed from, so the index is the list of admitted embedding
texts.  The loop skips a section (neither embedding nor metadata entry)
exactly when `len(full_text.strip()) < 30`, and returns `(None, [])`
when no embedding was produced. -/
def build_faiss_index (sections : List Section) : Option (List String) × List Section :=
  let kept := sections.filter (fun s => ¬ ((pyStrip (embedText s)).length < 30))
  if kept = [] then (none, [])
  else (some (kept.map embedText), kept)

/-- Descending-score comparison used to model
`results.sort(key=lambda x: -x[0])`: sorting ascending by `-score` with
a stable sort is sorting by this non-strict relation with a stable
sort. -/
def scoreDesc (a b : ℚ × Section) : Prop := b.1 ≤ a.1

instance : DecidableRel scoreDesc := fun a b => inferInstanceAs (Decidable (b.1 ≤ a.1))

/-- The `results` list of `query_faiss_index` before sorting
(src/main.py lines 128-132): `for i, idx in enumerate(I[0])` pairs
`D[0][i]` with `metadata[idx]`; FAISS returns `D` and `I` of equal
length, which the zip mirrors.  Similarity scores (floats in [-1,1])
are modelled as rationals. -/
def queryBase (D : List ℚ) (I : List Nat) (metadata : List Section) :
    List (ℚ × Section) :=
  (D.zip I).map (fun p => (p.1, metadata.getD p.2 default))

/-- The function `query_faiss_index` (src/main.py lines 124-136): build `results`,
then `results.sort(key=lambda x: -x[0])`.  Python's sort is stable, and
every stable sort by a total non-strict relation computes the same list,
so insertion sort by `scoreDesc` models it exactly. -/
def query_faiss_index (D : List ℚ) (I : List Nat) (metadata : List Section) :
    List (ℚ × Section) :=
  (queryBase D I metadata).insertionSort scoreDesc

/-- One record of the `extracted_sections` output list. -/
structure ExtractedEntry where
  document : String
  section_title : String
  importance_rank : Nat
  page_number : Nat
deriving DecidableEq, Repr, Inhabited

/-- One record of the `subsection_analysis` output list. -/
structure SubsectionEntry where
  document : String
  refined_text : String
  page_number : Nat
deriving DecidableEq, Repr, Inhabited

/-- The result-assembly tail of `main` (src/main.py lines 202-228):
filter `top_sections` by reflowed-content length `> 10`, enumerate from
rank 1, build the two parallel record lists, truncate each to
`num_results`. -/
def assembleOutput (top_sections : List (ℚ × Section)) (num_results : Nat) :
    List ExtractedEntry × List SubsectionEntry :=
  let kept := top_sections.filter (fun x => 10 < (combine_lines x.2.content).length)
  let extracted := kept.enum.map (fun p =>
    ({ document := p.2.2.document, section_title := p.2.2.title,
       importance_rank := p.1 + 1, page_number := p.2.2.page + 1 } : ExtractedEntry))
  let subs := kept.enum.map (fun p =>
    ({ document := p.2.2.document,
       refined_text := p.2.2.title ++ " - " ++ combine_lines p.2.2.content,
       page_number := p.2.2.page + 1 } : SubsectionEntry))
  (extracted.take num_results, subs.take num_results)

end Sections

namespace ProcessPdfs

/-- A text span as seen through `page.get_text("dict")`:
`span["text"]` and `span["size"]` (font size, a float modelled as ℚ). -/
structure PSpan where
  text : String
  size : ℚ
deriving DecidableEq, Repr, Inhabited

/-- A line of a text block: `line["bbox"][1]` (vertical position) and
its spans. -/
structure PLine where
  bboxTop : ℚ
  spans : List PSpan
deriving DecidableEq, Repr, Inhabited

/-- A block of `page.get_text("dict")["blocks"]`. -/
structure PBlock where
  lines : List PLine
deriving DecidableEq, Repr, Inhabited

/-- One page of a document, as observed through the external PDF
capability: its span layout, its plain text (`page.get_text()`), and
the markdown rendering of the single-page document
(`pymupdf4llm.to_markdown`); `none` models that rendering raising an
exception, which `process_pdf` catches per page. -/
structure Page where
  blocks : List PBlock
  rawText : String
  md : Option String
deriving DecidableEq, Repr, Inhabited

/-- A document as observed through the external PDF capability.
`metaTitle` is `doc.metadata['title']` (absent or empty modelled the
same way: the truthiness guard rejects both). -/
structure Doc where
  metaTitle : Option String
  pages : List Page
deriving DecidableEq, Repr, Inhabited

/-- The markdown punctuation removed by `process_pdfs.clean_text`:
`re.sub(r'[\*_`]', '', text)` (asterisk, underscore, backquote). -/
def isMdPunct (c : Char) : Bool :=
  c = '*' ∨ c = '_' ∨ c = Char.ofNat 96

/-- The character replacements
`text.replace('–', '-').replace('“', '"').replace('”', '"')`. -/
def replChar (c : Char) : Char :=
  if c = '–' then '-' else if c = '“' then '"' else if c = '”' then '"' else c

/-- The function `process_pdfs.clean_text` (src/process_pdfs.py lines 12-19):
drop markdown punctuation, normalize dashes/quotes, collapse
whitespace runs to single spaces, strip.  (The `if not text` guard is
the identity on the empty string and so needs no separate case.) -/
def clean_text (s : String) : String :=
  ⟨pyStripL (collapseWS ((s.data.filter (fun c => ¬ isMdPunct c)).map replChar))⟩

/-- Model of `len(text.split())`: the number of maximal non-whitespace runs.
The boolean argument records whether the scan is inside a word. -/
def countWordsAux : Bool → List Char → Nat
  | _, [] => 0
  | inWord, c :: cs =>
    if isPyWS c then countWordsAux false cs
    else (if inWord then 0 else 1) + countWordsAux true cs

/-- Model of `len(text.split())`. -/
def countWords (s : String) : Nat := countWordsAux false s.data

/-- Model of `pat in text`: `pat` occurs as a contiguous subsequence. -/
def containsSeq (pat : List Char) : List Char → Bool
  | [] => pat.isPrefixOf []
  | c :: cs => pat.isPrefixOf (c :: cs) || containsSeq pat cs

/-- A heading candidate `{level: f"H{n}", text, page}`; the level is
stored as the number `n` (already clamped to 6), so `"H1"` is `1`. -/
structure Heading where
  level : Nat
  text : String
  page : Nat
deriving DecidableEq, Repr, Inhabited

/-- The function `extract_headings_from_markdown` (src/process_pdfs.py lines 21-36).
Per line (stripped first), `re.match(r'^(#+)\s+(.*)', line.strip())`
requires a non-empty run of `#` followed by at least one whitespace
character; the greedy `\s+` swallows the whole whitespace run and
`(.*)` is the remainder.  Candidates cleaning to fewer than 4
characters or containing `'---'` are discarded. -/
def extract_headings_from_markdown (markdownText : String) (pageNum : Nat) :
    List Heading :=
  (strSplitLines markdownText).filterMap fun line =>
    let l := pyStripL line.data
    let hashes := l.takeWhile (· = '#')
    let rest := l.dropWhile (· = '#')
    let ws := rest.takeWhile isPyWS
    let body := rest.dropWhile isPyWS
    if hashes ≠ [] ∧ ws ≠ [] then
      let text := clean_text ⟨body⟩
      if text.length < 4 ∨ containsSeq ['-', '-', '-'] text.data then none
      else some ⟨min hashes.length 6, text, pageNum⟩
    else none

/-- The function `extract_headings_from_font_sizes` (src/process_pdfs.py lines
38-52): every span whose cleaned text is non-empty, has fewer than 15
words and font size greater than 12 becomes an `H2` candidate. -/
def extract_headings_from_font_sizes (page : Page) (pageNum : Nat) : List Heading :=
  page.blocks.flatMap fun b =>
    b.lines.flatMap fun l =>
      l.spans.filterMap fun sp =>
        let text := clean_text sp.text
        if text ≠ "" ∧ countWords text < 15 ∧ 12 < sp.size then
          some ⟨2, text, pageNum⟩
        else none

/-- The per-line rewrite of `convert_bold_to_markdown_headings`
(src/process_pdfs.py lines 55-72).  `re.fullmatch(r"\*\*(.+?)\*\*",
stripped)` succeeds exactly when the stripped line starts with `**`,
ends with `**`, and has length at least 5; the group is then forced to
be `stripped[2:-2]`. -/
def convertBoldLine (line : String) : String :=
  let d := pyStripL line.data
  if 5 ≤ d.length ∧ d.take 2 = ['*', '*'] ∧ d.reverse.take 2 = ['*', '*'] then
    let mid := (d.drop 2).dropLast.dropLast
    if mid.getLast? = some ':' then ⟨('#' :: '#' :: '#' :: ' ' :: pyStripL mid.dropLast)⟩
    else ⟨('#' :: '#' :: ' ' :: mid)⟩
  else line

/-- The function `convert_bold_to_markdown_headings` (src/process_pdfs.py lines
55-72): rewrite each line, rejoin with newlines. -/
def convert_bold_to_markdown_headings (mdText : String) : String :=
  strUnsplitLines ((strSplitLines mdText).map convertBoldLine)

/-- A candidate line record of `get_best_title`'s font-size pass:
`{'text': ..., 'size': ..., 'pos': line["bbox"][1]}`. -/
structure TLine where
  text : String
  size : ℚ
  pos : ℚ
deriving DecidableEq, Repr, Inhabited

/-- Model of `lines.sort(key=lambda x: (-x['size'], x['pos']))`: the non-strict
lexicographic order on the key `(-size, pos)`; Python's sort is stable,
so a stable sort by this relation models it exactly. -/
def titleKey (a b : TLine) : Prop :=
  b.size < a.size ∨ (a.size = b.size ∧ a.pos ≤ b.pos)

instance : DecidableRel titleKey := fun a b =>
  inferInstanceAs (Decidable (b.size < a.size ∨ (a.size = b.size ∧ a.pos ≤ b.pos)))

/-- The function `get_best_title` (src/process_pdfs.py lines 75-103).  Cascade:
metadata title if its cleaned form is longer than 5; else the first
first-page span (sorted by descending size then vertical position)
whose cleaned text length is strictly between 4 and 80; else the first
raw first-page line cleaning to length greater than 5, else `""`.
`doc[0].get_text()` on a document with no pages raises `IndexError`
(the final fallback runs unconditionally), modelled by `.error ()`. -/
def get_best_title (doc : Doc) : Except Unit String :=
  let mt := match doc.metaTitle with
    | some t => if t ≠ "" then some (clean_text t) else none
    | none => none
  match mt with
  | some t =>
    if 5 < t.length then .ok t
    else get_best_title_rest doc
  | none => get_best_title_rest doc
where
  get_best_title_rest (doc : Doc) : Except Unit String :=
    let fromSpans : Option String :=
      match doc.pages.head? with
      | some p0 =>
        let tlines := p0.blocks.flatMap fun b =>
          b.lines.flatMap fun l =>
            l.spans.map fun sp => TLine.mk (clean_text sp.text) sp.size l.bboxTop
        if tlines ≠ [] then
          ((tlines.insertionSort titleKey).find? fun x =>
            4 < x.text.length ∧ x.text.length < 80).map TLine.text
        else none
      | none => none
    match fromSpans with
    | some t => .ok t
    | none =>
      match doc.pages.head? with
      | none => .error ()
      | some p0 =>
        match (strSplitLines p0.rawText).find? (fun l => 5 < (clean_text l).length) with
        | some l => .ok (clean_text l)
        | none => .ok ""

/-- The `(text, page)` first-occurrence deduplication of `process_pdf`
(src/process_pdfs.py lines 138-143): the `seen` set holds exactly the
keys of the headings already appended to `outline`. -/
def dedupHeadings (hs : List Heading) : List Heading :=
  hs.foldl (fun acc h =>
    if acc.any (fun g => g.text = h.text ∧ g.page = h.page) then acc
    else acc ++ [h]) []

/-- The record returned by `process_pdf`. -/
structure ProcessResult where
  title : String
  outline : List Heading
  filename : String
deriving DecidableEq, Repr, Inhabited

/-- The function `process_pdf` (src/process_pdfs.py lines 105-156).  Per page, the
markdown rendering (when it does not raise) passes through the bold
promotion and the markdown heading scan; font-size candidates are
appended afterwards; the combined stream is deduplicated by
`(text, page)`.  The title falls back to the first `H1` (or, when that
is absent or empty, the first heading) only when `get_best_title`
returned the empty string and the outline is non-empty, and is returned
as `title.strip() + " "`.  An exception from `get_best_title`
propagates. -/
def process_pdf (filename : String) (doc : Doc) : Except Unit ProcessResult :=
  let all_headings := doc.pages.enum.flatMap fun p =>
    (match p.2.md with
     | some md =>
       extract_headings_from_markdown (convert_bold_to_markdown_headings md) p.1
     | none => []) ++ extract_headings_from_font_sizes p.2 p.1
  let outline := dedupHeadings all_headings
  match get_best_title doc with
  | .error e => .error e
  | .ok t =>
    let title :=
      if t = "" ∧ outline ≠ [] then
        match outline.find? (fun h => h.level = 1) with
        | some h => if h.text = "" then outline.headI.text else h.text
        | none => outline.headI.text
      else t
    .ok ⟨pyStrip title ++ " ", outline, filename⟩

/-- The function `main_process_pdf` (src/process_pdfs.py lines 158-169): the
argument models the result of opening the file (`.error ()` when
`fitz.open` raises); any exception from `process_pdf` is caught and
turned into `None`. -/
def main_process_pdf (filename : String) (opened : Except Unit Doc) :
    Option ProcessResult :=
  match opened with
  | .error _ => none
  | .ok doc =>
    match process_pdf filename doc with
    | .error _ => none
    | .ok r => some r

end ProcessPdfs

section MainRun

/-- One listed document of a run: its filename, and what the
filesystem/PDF layer does for it — `none` models `os.path.exists`
false (skipped with a log), `some (.error ())` models `fitz.open`
raising (so `main_process_pdf` returns `None`), `some (.ok doc)` a
readable document. -/
structure FileEntry where
  filename : String
  onDisk : Option (Except Unit ProcessPdfs.Doc)
deriving Inhabited

/-- The observable outcome of `main` (src/main.py lines 140-238):
the three early `return`s, or reaching the unconditional
query/assemble/write tail with the accumulated `input_documents` and
`all_sections`. -/
inductive RunOutcome where
  | abortNoHeadings
  | abortNoContent
  | abortNothingToIndex
  | wrote (input_documents : List String) (all_sections : List Section)
deriving DecidableEq, Repr

/-- Model of `full_text = "\n".join([page.get_text() for page in doc])` then
`full_text.splitlines()` (src/main.py lines 75-77). -/
def docLines (doc : ProcessPdfs.Doc) : List String :=
  strSplitLines (strUnsplitLines (doc.pages.map ProcessPdfs.Page.rawText))

/-- The per-document loop of `main` (src/main.py lines 167-189),
accumulating `(input_documents, all_sections)`; `none` is the early
`return` taken when `main_process_pdf` returned `None`
(`if not extracted_headings: return` — the dict returned by
`process_pdf` always has three keys, hence is always truthy, so only
`None` triggers it).  H1/H2 headings are stored under the filename and
immediately read back by `extract_sections_from_pdf`; the
`try`/`except` around it never fires in this model because section
extraction raises nothing once the document is readable. -/
def mainLoop : List FileEntry → List String × List Section →
    Option (List String × List Section)
  | [], acc => some acc
  | f :: rest, acc =>
    match f.onDisk with
    | none => mainLoop rest acc
    | some opened =>
      match ProcessPdfs.main_process_pdf f.filename opened with
      | none => none
      | some r =>
        match opened with
        | .error _ => none
        | .ok doc =>
          let headings := (r.outline.filter (fun h => h.level = 1 ∨ h.level = 2)).map
            (fun h => (h.text, h.page))
          let secs := (extract_sections_from_pdf headings (docLines doc)).map
            (fun s => ({ document := f.filename, title := s.title,
                         content := s.content, page := s.page } : Section))
          mainLoop rest (acc.1 ++ [f.filename], acc.2 ++ secs)

/-- The function `main` (src/main.py lines 140-238) up to its observable outcome:
the loop, then `if not all_sections: return`, then
`if not index: return`; past those, the function unconditionally
queries the index, assembles the records and writes the output file. -/
def mainRun (files : List FileEntry) : RunOutcome :=
  match mainLoop files ([], []) with
  | none => .abortNoHeadings
  | some acc =>
    if acc.2 = [] then .abortNoContent
    else
      match (build_faiss_index acc.2).1 with
      | none => .abortNothingToIndex
      | some _ => .wrote acc.1 acc.2

end MainRun

section InputConfig

/-- Python values as deserialized by `json.load`, restricted to the
shapes relevant to `load_input_config`. -/
inductive PyVal where
  | str (s : String)
  | num (n : Int)
  | dict (entries : List (String × PyVal))
  | list (items : List PyVal)
  | null

/-- Python truthiness for these values. -/
def PyVal.truthy : PyVal → Bool
  | .str s => s ≠ ""
  | .num n => n ≠ 0
  | .dict e => !e.isEmpty
  | .list l => !l.isEmpty
  | .null => false

/-- The Python exceptions `load_input_config` can raise. -/
inductive PyErr where
  | attributeError
  | keyError
  | typeError
deriving DecidableEq, Repr

/-- Dictionary lookup (last binding wins, as when `json.load` builds
the dict). -/
def PyVal.lookup (entries : List (String × PyVal)) (k : String) : Option PyVal :=
  entries.foldl (fun acc p => if p.1 = k then some p.2 else acc) none

/-- Model of `v.get(k, dflt)`: only dictionaries have a `get` method; on any
other value Python raises `AttributeError`. -/
def PyVal.get (v : PyVal) (k : String) (dflt : PyVal) : Except PyErr PyVal :=
  match v with
  | .dict e => .ok ((PyVal.lookup e k).getD dflt)
  | _ => .error .attributeError

/-- Model of `v[k]` for a string key: a dictionary either yields the value or
raises `KeyError`; subscripting anything else with a string raises
`TypeError`. -/
def PyVal.subscript (v : PyVal) (k : String) : Except PyErr PyVal :=
  match v with
  | .dict e =>
    match PyVal.lookup e k with
    | some x => .ok x
    | none => .error .keyError
  | _ => .error .typeError

/-- Model of `for x in v`: lists yield their items, dictionaries their keys;
other values are not iterable here. -/
def PyVal.iterate : PyVal → Except PyErr (List PyVal)
  | .list l => .ok l
  | .dict e => .ok (e.map (fun p => .str p.1))
  | _ => .error .typeError

/-- The function `load_input_config` (src/main.py lines 19-25), after `json.load`
produced `data`.  `a or b` evaluates `b` only when `a` is falsy, and
both operands' `data.get` calls fail in exactly the same cases, so the
eager evaluation is faithful. -/
def load_input_config (data : PyVal) : Except PyErr (PyVal × PyVal × List PyVal) := do
  let personaOuter ← data.get "persona" (.dict [])
  let personaRole ← personaOuter.get "role" (.str "")
  let persona ← if personaRole.truthy then pure personaRole
    else data.get "persona" (.str "")
  let jobOuter ← data.get "job_to_be_done" (.dict [])
  let jobTask ← jobOuter.get "task" (.str "")
  let job ← if jobTask.truthy then pure jobTask
    else data.get "job_to_be_done" (.str "")
  let documents ← data.get "documents" (.list [])
  let docItems ← documents.iterate
  let filenames ← docItems.mapM (fun d => d.subscript "filename")
  return (persona, job, filenames)

end InputConfig

/-! ## Theorems -/

lemma build_faiss_index_snd (sections : List Section) :
    (build_faiss_index sections).2 =
      sections.filter (fun s => ¬ ((pyStrip (embedText s)).length < 30)) := by
  simp only [build_faiss_index]
  split
  · next h => exact h.symm
  · rfl

/-- C5: a section enters the vector index's metadata exactly when the
stripped length of its embedding text (document, title, content joined
by spaces) is at least 30; shorter sections appear in neither the
metadata nor the index, and the index holds exactly the admitted
sections' embedding texts. -/
theorem build_faiss_index_admits_iff :
    ∀ sections : List Section,
      (∀ s : Section, s ∈ (build_faiss_index sections).2 ↔
        (s ∈ sections ∧ 30 ≤ (pyStrip (embedText s)).length)) ∧
      ((build_faiss_index sections).1 =
          some ((build_faiss_index sections).2.map embedText) ∨
        ((build_faiss_index sections).1 = none ∧
          (build_faiss_index sections).2 = [])) := by
  intro sections
  constructor
  · intro s
    rw [build_faiss_index_snd, List.mem_filter]
    simp [Nat.not_lt]
  · simp only [build_faiss_index]
    split
    · next h => exact Or.inr ⟨rfl, rfl⟩
    · exact Or.inl rfl

lemma snd_mem_of_mem_enumFrom {α : Type} {p : Nat × α} :
    ∀ {l : List α} {n : Nat}, p ∈ l.enumFrom n → p.2 ∈ l := by
  intro l
  induction l with
  | nil => intro n h; simp at h
  | cons a t ih =>
    intro n h
    rw [List.enumFrom_cons] at h
    rcases List.mem_cons.1 h with h | h
    · rw [h]; exact List.mem_cons_self _ _
    · exact List.mem_cons_of_mem _ (ih h)

lemma snd_mem_of_mem_enum {α : Type} {p : Nat × α} {l : List α}
    (h : p ∈ l.enum) : p.2 ∈ l :=
  snd_mem_of_mem_enumFrom h

/-- C6: every record of either assembled output list comes from a
section whose reflowed content (`combine_lines`) is strictly longer
than 10 characters. -/
theorem assembleOutput_content_gt_ten :
    ∀ (top : List (ℚ × Section)) (num : Nat),
      (∀ e ∈ (assembleOutput top num).1, ∃ sc s, (sc, s) ∈ top ∧
        10 < (combine_lines s.content).length ∧
        e.document = s.document ∧ e.section_title = s.title ∧
        e.page_number = s.page + 1) ∧
      (∀ e ∈ (assembleOutput top num).2, ∃ sc s, (sc, s) ∈ top ∧
        10 < (combine_lines s.content).length ∧
        e.document = s.document ∧
        e.refined_text = s.title ++ " - " ++ combine_lines s.content ∧
        e.page_number = s.page + 1) := by
  intro top num
  constructor
  · intro e he
    unfold assembleOutput at he
    simp only at he
    have he' := List.mem_of_mem_take he
    rcases List.mem_map.1 he' with ⟨p, hp, rfl⟩
    have hmem := snd_mem_of_mem_enum hp
    rcases List.mem_filter.1 hmem with ⟨htop, hlen⟩
    exact ⟨p.2.1, p.2.2, htop, by simpa using hlen, rfl, rfl, rfl⟩
  · intro e he
    unfold assembleOutput at he
    simp only at he
    have he' := List.mem_of_mem_take he
    rcases List.mem_map.1 he' with ⟨p, hp, rfl⟩
    have hmem := snd_mem_of_mem_enum hp
    rcases List.mem_filter.1 hmem with ⟨htop, hlen⟩
    exact ⟨p.2.1, p.2.2, htop, by simpa using hlen, rfl, rfl, rfl⟩

/-- Closed witness for `assembleOutput_content_gt_ten`: a concrete
ranked section with a long body passes the filter and its output
records carry its data. -/
theorem assembleOutput_content_gt_ten_witness :
    ∃ sc s, (sc, s) ∈ [((1 : ℚ),
        (⟨"d.pdf", "Intro", "This body is long enough to keep.", 0⟩ : Section))] ∧
      10 < (combine_lines s.content).length ∧
      (⟨"d.pdf", "Intro", 1, 1⟩ : ExtractedEntry).document = s.document ∧
      (⟨"d.pdf", "Intro", 1, 1⟩ : ExtractedEntry).section_title = s.title ∧
      (⟨"d.pdf", "Intro", 1, 1⟩ : ExtractedEntry).page_number = s.page + 1 :=
  (assembleOutput_content_gt_ten
      [((1 : ℚ), (⟨"d.pdf", "Intro", "This body is long enough to keep.", 0⟩ : Section))]
      5).1
    ⟨"d.pdf", "Intro", 1, 1⟩ (by decide)

lemma headingPageMap_append_single (hs : List (String × Nat)) (h : String × Nat)
    (k : String) :
    headingPageMap (hs ++ [h]) k =
      if k = pyStrip h.1 then some h.2 else headingPageMap hs k := by
  unfold headingPageMap
  rw [List.foldl_append]
  rfl

lemma headingPageMap_eq_reverse_find (hs : List (String × Nat)) (k : String) :
    headingPageMap hs k =
      (hs.reverse.find? (fun h => pyStrip h.1 = k)).map Prod.snd := by
  induction hs using List.reverseRecOn with
  | nil => rfl
  | append_singleton hs h ih =>
    rw [headingPageMap_append_single, List.reverse_append, List.reverse_singleton,
      List.singleton_append, List.find?_cons]
    by_cases hk : k = pyStrip h.1
    · rw [if_pos hk]
      have hd : decide (pyStrip h.1 = k) = true := decide_eq_true hk.symm
      rw [hd]
      rfl
    · rw [if_neg hk]
      have hd : decide (pyStrip h.1 = k) = false :=
        decide_eq_false (fun hc => hk hc.symm)
      rw [hd]
      exact ih

lemma extractStep_invariant (m : String → Option Nat)
    (acc : List PdfSection × Option PdfSection) (line : String)
    (h1 : ∀ s ∈ acc.1, m s.title = some s.page)
    (h2 : ∀ s ∈ acc.2.toList, m s.title = some s.page) :
    (∀ s ∈ (extractStep m acc line).1, m s.title = some s.page) ∧
      (∀ s ∈ (extractStep m acc line).2.toList, m s.title = some s.page) := by
  cases hm : m (pyStrip line) with
  | some p =>
    refine ⟨?_, ?_⟩
    · intro s hs
      simp only [extractStep, hm] at hs
      rcases List.mem_append.1 hs with hs | hs
      · exact h1 s hs
      · exact h2 s hs
    · intro s hs
      simp only [extractStep, hm, Option.toList_some, List.mem_singleton] at hs
      rw [hs]
      exact hm
  | none =>
    cases hc : acc.2 with
    | some cur =>
      refine ⟨?_, ?_⟩
      · intro s hs
        simp only [extractStep, hm, hc] at hs
        exact h1 s hs
      · intro s hs
        simp only [extractStep, hm, hc, Option.toList_some, List.mem_singleton] at hs
        rw [hs]
        exact h2 cur (by rw [hc]; exact List.mem_singleton.2 rfl)
    | none =>
      refine ⟨?_, ?_⟩
      · intro s hs
        simp only [extractStep, hm, hc] at hs
        exact h1 s hs
      · intro s hs
        simp only [extractStep, hm, hc] at hs
        simp at hs

lemma extractFold_invariant (m : String → Option Nat) (lines : List String) :
    ∀ acc : List PdfSection × Option PdfSection,
      (∀ s ∈ acc.1, m s.title = some s.page) →
      (∀ s ∈ acc.2.toList, m s.title = some s.page) →
      (∀ s ∈ (lines.foldl (extractStep m) acc).1, m s.title = some s.page) ∧
        (∀ s ∈ (lines.foldl (extractStep m) acc).2.toList, m s.title = some s.page) := by
  induction lines with
  | nil => intro acc h1 h2; exact ⟨h1, h2⟩
  | cons line rest ih =>
    intro acc h1 h2
    rw [List.foldl_cons]
    have step := extractStep_invariant m acc line h1 h2
    exact ih _ step.1 step.2

/-- C4: the text-keyed page lookup built by `extract_sections_from_pdf`
maps a heading text to the page of the *last* heading in the list with
that (stripped) text — same-text headings collapse to one entry — and
every produced section's page is exactly that lookup's value for its
title. -/
theorem extract_sections_last_page_wins :
    (∀ (hs : List (String × Nat)) (k : String),
      headingPageMap hs k =
        (hs.reverse.find? (fun h => pyStrip h.1 = k)).map Prod.snd) ∧
    (∀ (hs : List (String × Nat)) (lines : List String),
      ∀ s ∈ extract_sections_from_pdf hs lines,
        headingPageMap hs s.title = some s.page) := by
  refine ⟨headingPageMap_eq_reverse_find, ?_⟩
  intro hs lines s hmem
  unfold extract_sections_from_pdf at hmem
  by_cases h0 : hs = []
  · rw [if_pos h0] at hmem; simp at hmem
  · rw [if_neg h0] at hmem
    have inv := extractFold_invariant (headingPageMap hs) lines ([], none)
      (by simp) (by simp)
    rcases List.mem_append.1 hmem with hmem | hmem
    · exact inv.1 s hmem
    · exact inv.2 s hmem

/-- Closed witness for `extract_sections_last_page_wins`: with two
headings `("A", 1)` and `("A", 5)`, the section opened at line `"A"`
gets page 5 — the last heading's page. -/
theorem extract_sections_last_page_wins_witness :
    (⟨"A", "body\n", 5⟩ : PdfSection) ∈
        extract_sections_from_pdf [("A", 1), ("A", 5)] ["A", "body"] ∧
      headingPageMap [("A", 1), ("A", 5)] "A" = some 5 :=
  ⟨by decide,
    extract_sections_last_page_wins.2 [("A", 1), ("A", 5)] ["A", "body"]
      ⟨"A", "body\n", 5⟩ (by decide)⟩

lemma dropWhile_append_all {α : Type} (p : α → Bool) :
    ∀ (a b : List α), (∀ c ∈ a, p c) → (∀ c ∈ b.head?, ¬ p c) →
      List.dropWhile p (a ++ b) = b := by
  intro a
  induction a with
  | nil =>
    intro b _ hb
    cases b with
    | nil => rfl
    | cons x t =>
      rw [List.nil_append, List.dropWhile_cons]
      have := hb x rfl
      simp [this]
  | cons x t ih =>
    intro b ha hb
    rw [List.cons_append, List.dropWhile_cons]
    have hx : p x = true := ha x (List.mem_cons_self _ _)
    simp only [hx, if_true]
    exact ih b (fun c hc => ha c (List.mem_cons_of_mem _ hc)) hb

lemma bullet_not_ws {c : Char} (h : isLineBullet c) : ¬ isPyWS c := by
  have h' : c = '•' ∨ c = '-' ∨ c = '–' ∨ c = 'o' :=
    of_decide_eq_true (show decide (c = '•' ∨ c = '-' ∨ c = '–' ∨ c = 'o') = true from h)
  rcases h' with h | h | h | h <;> (rw [h]; decide)

/-- C3: the bullet substitution `combine_lines` applies to every line
deletes the line's maximal leading run of characters from the set
`{•, -, –, o}` together with the following whitespace run; in
particular a line starting with the letter `'o'` — e.g. `"often"` —
loses that `'o'` although it is ordinary word text. -/
theorem stripLineBullets_deletes_leading_run :
    ∀ (run ws rest : List Char),
      run ≠ [] →
      (∀ c ∈ run, isLineBullet c) →
      (∀ c ∈ ws, isPyWS c) →
      (∀ c ∈ rest.head?, ¬ isLineBullet c ∧ ¬ isPyWS c) →
      stripLineBullets (run ++ ws ++ rest) = rest := by
  intro run ws rest hne hrun hws hrest
  unfold stripLineBullets
  have hdrop : List.dropWhile isPyWS (run ++ ws ++ rest) = run ++ ws ++ rest := by
    have := dropWhile_append_all isPyWS [] (run ++ ws ++ rest) (by simp) ?_
    · simpa using this
    · intro c hc
      rcases run with _ | ⟨x, t⟩
      · exact absurd rfl hne
      · simp only [List.cons_append, List.head?_cons, Option.mem_def,
          Option.some_inj] at hc
        rw [← hc]
        exact bullet_not_ws (hrun x (List.mem_cons_self _ _))
  rw [hdrop]
  rcases hr : run with _ | ⟨x, t⟩
  · exact absurd hr hne
  · simp only [List.cons_append]
    have hx : isLineBullet x = true := hrun x (by rw [hr]; exact List.mem_cons_self _ _)
    simp only [hx, if_true]
    have h1 : List.dropWhile isLineBullet ((x :: t) ++ (ws ++ rest)) = ws ++ rest := by
      apply dropWhile_append_all
      · intro c hc; exact hrun c (by rw [hr]; exact hc)
      · intro c hc
        cases ws with
        | nil =>
          simp only [List.nil_append] at hc
          exact fun hb => (hrest c hc).1 hb
        | cons w wt =>
          simp only [List.cons_append, List.head?_cons, Option.mem_def,
            Option.some_inj] at hc
          rw [← hc]
          intro hb
          exact bullet_not_ws hb (hws w (List.mem_cons_self _ _))
    rw [List.cons_append] at h1
    rw [List.append_assoc, h1]
    apply dropWhile_append_all
    · exact hws
    · intro c hc; exact fun hw => (hrest c hc).2 hw

/-- Closed witness for `stripLineBullets_deletes_leading_run`: the line
`"often"` becomes `"ften"`. -/
theorem stripLineBullets_deletes_leading_run_witness :
    stripLineBullets "often".data = "ften".data :=
  stripLineBullets_deletes_leading_run ['o'] [] "ften".data (by decide)
    (by decide) (by decide) (by decide)

/-- C1: a configuration whose `persona` is a bare string makes
`load_input_config` raise `AttributeError` —
`data.get("persona", {}).get("role", "")` calls `.get` on the string —
instead of returning the persona string as the spec demands.  The
`or`-fallback `data.get("persona", "")` shows the bare-string shape was
intended to be supported, so this is a defect of the code. -/
theorem load_input_config_bare_string_raises :
    load_input_config (PyVal.dict
      [("persona", .str "PhD Researcher"),
       ("job_to_be_done", .dict [("task", .str "Literature review")]),
       ("documents", .list [])]) = .error .attributeError := rfl

lemma head_not_of_dropWhile {α : Type} (p : α → Bool) (l : List α) :
    ∀ c ∈ (List.dropWhile p l).head?, ¬ p c := by
  induction l with
  | nil => intro c hc; simp at hc
  | cons x t ih =>
    intro c hc
    by_cases hx : p x
    · rw [List.dropWhile_cons, if_pos hx] at hc
      exact ih c hc
    · rw [List.dropWhile_cons, if_neg hx] at hc
      simp only [List.head?_cons, Option.mem_def, Option.some_inj] at hc
      rw [← hc]
      exact hx

lemma prefix_head_eq {α : Type} {l₁ l₂ : List α} (h : l₁ <+: l₂)
    (hne : l₁ ≠ []) : l₁.head? = l₂.head? := by
  rcases h with ⟨t, rfl⟩
  cases l₁ with
  | nil => exact absurd rfl hne
  | cons x s => rfl

lemma pyStripL_head_not_ws (l : List Char) :
    ∀ c ∈ (pyStripL l).head?, ¬ isPyWS c := by
  intro c hc
  unfold pyStripL at hc
  have hpre : (List.dropWhile isPyWS l).rdropWhile isPyWS <+: List.dropWhile isPyWS l :=
    List.rdropWhile_prefix _ _
  by_cases hne : (List.dropWhile isPyWS l).rdropWhile isPyWS = []
  · rw [hne] at hc; simp at hc
  · rw [prefix_head_eq hpre hne] at hc
    exact head_not_of_dropWhile isPyWS l c hc

lemma pyStripL_last_not_ws (l : List Char) :
    ∀ c ∈ (pyStripL l).getLast?, ¬ isPyWS c := by
  intro c hc
  unfold pyStripL at hc
  by_cases hne : (List.dropWhile isPyWS l).rdropWhile isPyWS = []
  · rw [hne] at hc; simp at hc
  · have := List.rdropWhile_last_not (p := isPyWS) (l := List.dropWhile isPyWS l) hne
    rw [List.getLast?_eq_getLast _ hne] at hc
    simp only [Option.mem_def, Option.some_inj] at hc
    rw [← hc]
    exact this

lemma pyStrip_append_space_shape (T : String) :
    (pyStrip T ++ " ") ≠ "" ∧
    ∃ core : List Char, (pyStrip T ++ " ").data = core ++ [' '] ∧
      (∀ c ∈ core.head?, ¬ isPyWS c) ∧ (∀ c ∈ core.getLast?, ¬ isPyWS c) := by
  constructor
  · intro hempty
    have hd := congrArg String.data hempty
    rw [String.data_append] at hd
    simp at hd
  · refine ⟨pyStripL T.data, ?_, pyStripL_head_not_ws _, pyStripL_last_not_ws _⟩
    rw [String.data_append]
    rfl

/-- C10: whenever `process_pdf` returns (it raises on a zero-page
document, where `doc[0]` is an `IndexError`), the returned title is the
non-empty string `title.strip() + " "`: it ends in exactly one trailing
space (the character before it, if any, is not whitespace) and carries
no leading whitespace. -/
theorem process_pdf_title_trailing_space :
    ∀ (filename : String) (doc : ProcessPdfs.Doc) (r : ProcessPdfs.ProcessResult),
      ProcessPdfs.process_pdf filename doc = .ok r →
      r.title ≠ "" ∧
      ∃ core : List Char, r.title.data = core ++ [' '] ∧
        (∀ c ∈ core.head?, ¬ isPyWS c) ∧ (∀ c ∈ core.getLast?, ¬ isPyWS c) := by
  intro filename doc r h
  unfold ProcessPdfs.process_pdf at h
  split at h
  · exact Except.noConfusion h
  · have hr := Except.ok.inj h
    subst hr
    exact pyStrip_append_space_shape _

/-- Closed witness for `process_pdf_title_trailing_space`: a one-page
document with a metadata title resolves to `"A Proper Title "`. -/
theorem process_pdf_title_trailing_space_witness :
    (ProcessPdfs.process_pdf "f.pdf"
        ⟨some "A Proper Title", [⟨[], "", none⟩]⟩ =
      .ok ⟨"A Proper Title ", [], "f.pdf"⟩) ∧
    ("A Proper Title " ≠ "" ∧
      ∃ core : List Char, "A Proper Title ".data = core ++ [' '] ∧
        (∀ c ∈ core.head?, ¬ isPyWS c) ∧ (∀ c ∈ core.getLast?, ¬ isPyWS c)) :=
  ⟨rfl, process_pdf_title_trailing_space "f.pdf"
    ⟨some "A Proper Title", [⟨[], "", none⟩]⟩ ⟨"A Proper Title ", [], "f.pdf"⟩
    rfl⟩

/-- A readable one-page document that yields no headings at all: its
markdown rendering is empty and it has no large-font spans. -/
def docNoHeadings : ProcessPdfs.Doc :=
  ⟨some "Document Alpha", [⟨[], "some plain text here", some ""⟩]⟩

/-- A readable one-page document with one large-font heading whose text
opens a section with a long body. -/
def docWithHeading : ProcessPdfs.Doc :=
  ⟨some "Document Beta",
   [⟨[⟨[⟨0, [⟨"Chapter One", 20⟩]⟩]⟩],
     "Chapter One\nThis is the body of chapter one with plenty of text.",
     none⟩]⟩

/-- The section `docWithHeading` contributes to the run. -/
def secChapterOne : Section :=
  ⟨"b.pdf", "Chapter One",
   "This is the body of chapter one with plenty of text.\n", 0⟩

/-- C2 counterexample: a listed document that exists on disk and yields
no headings does **not** abort the run — `main_process_pdf` returns a
(truthy) result record with an empty outline, the document merely
contributes zero sections, and the run proceeds to write the output
built from the other document. -/
theorem mainRun_empty_outline_not_fatal :
    (∃ r, ProcessPdfs.main_process_pdf "a.pdf" (.ok docNoHeadings) = some r ∧
      r.outline = []) ∧
    mainRun [⟨"a.pdf", some (.ok docNoHeadings)⟩, ⟨"b.pdf", some (.ok docWithHeading)⟩] =
      .wrote ["a.pdf", "b.pdf"] [secChapterOne] :=
  ⟨⟨⟨"Document Alpha ", [], "a.pdf"⟩, by decide, by decide⟩, by decide⟩

lemma mainLoop_none_iff :
    ∀ (files : List FileEntry) (acc : List String × List Section),
      mainLoop files acc = none ↔
      ∃ f ∈ files, ∃ opened, f.onDisk = some opened ∧
        ProcessPdfs.main_process_pdf f.filename opened = none := by
  intro files
  induction files with
  | nil => intro acc; simp [mainLoop]
  | cons f rest ih =>
    intro acc
    cases hd : f.onDisk with
    | none =>
      simp only [mainLoop, hd]
      rw [ih]
      constructor
      · rintro ⟨f', hf', h⟩
        exact ⟨f', List.mem_cons_of_mem _ hf', h⟩
      · rintro ⟨f', hf', op, hop, hop2⟩
        rcases List.mem_cons.1 hf' with rfl | hf'
        · rw [hd] at hop; exact Option.noConfusion hop
        · exact ⟨f', hf', op, hop, hop2⟩
    | some opened =>
      cases hm : ProcessPdfs.main_process_pdf f.filename opened with
      | none =>
        simp only [mainLoop, hd, hm]
        constructor
        · intro _
          exact ⟨f, List.mem_cons_self _ _, opened, hd, hm⟩
        · intro _; trivial
      | some r =>
        cases opened with
        | error e =>
          rw [ProcessPdfs.main_process_pdf] at hm
          exact absurd hm (by simp)
        | ok doc =>
          simp only [mainLoop, hd, hm]
          rw [ih]
          constructor
          · rintro ⟨f', hf', h⟩
            exact ⟨f', List.mem_cons_of_mem _ hf', h⟩
          · rintro ⟨f', hf', op, hop, hop2⟩
            rcases List.mem_cons.1 hf' with rfl | hf'
            · rw [hd] at hop
              rw [← Option.some_inj.1 hop] at hop2
              rw [hm] at hop2
              exact Option.noConfusion hop2
            · exact ⟨f', hf', op, hop, hop2⟩

/-- C2 amended: `main` takes the early `return` inside the document loop
(aborting with no output written) exactly when some listed, on-disk
document's processing raises — `main_process_pdf` returns `None` —
while a document that merely yields no headings never triggers it. -/
theorem mainRun_abortNoHeadings_iff :
    ∀ files : List FileEntry,
      mainRun files = .abortNoHeadings ↔
      ∃ f ∈ files, ∃ opened, f.onDisk = some opened ∧
        ProcessPdfs.main_process_pdf f.filename opened = none := by
  intro files
  rw [← mainLoop_none_iff files ([], [])]
  unfold mainRun
  split
  · next heq => simp [heq]
  · next acc heq =>
    rw [heq]
    constructor
    · intro habs
      exfalso
      by_cases h2 : acc.2 = []
      · rw [if_pos h2] at habs
        exact RunOutcome.noConfusion habs
      · rw [if_neg h2] at habs
        cases hb : (build_faiss_index acc.2).1 with
        | none => rw [hb] at habs; exact RunOutcome.noConfusion habs
        | some idx => rw [hb] at habs; exact RunOutcome.noConfusion habs
    · intro hn
      exact Option.noConfusion hn

instance : IsTotal (ℚ × Section) scoreDesc :=
  ⟨fun a b => le_total b.1 a.1⟩

instance : IsTrans (ℚ × Section) scoreDesc :=
  ⟨fun _ _ _ hab hbc => le_trans hbc hab⟩

lemma filter_score_orderedInsert (c : ℚ) (a : ℚ × Section)
    (l : List (ℚ × Section)) :
    (l.orderedInsert scoreDesc a).filter (fun x => x.1 = c) =
      if a.1 = c then a :: l.filter (fun x => x.1 = c)
      else l.filter (fun x => x.1 = c) := by
  induction l with
  | nil =>
    by_cases hac : a.1 = c
    · rw [if_pos hac]
      simp [List.orderedInsert, hac]
    · rw [if_neg hac]
      simp [List.orderedInsert, hac]
  | cons b t ih =>
    rw [List.orderedInsert]
    by_cases hab : scoreDesc a b
    · rw [if_pos hab]
      by_cases hac : a.1 = c
      · rw [if_pos hac, List.filter_cons_of_pos (by simpa using hac)]
      · rw [if_neg hac, List.filter_cons_of_neg (by simpa using hac)]
    · rw [if_neg hab]
      by_cases hac : a.1 = c
      · rw [if_pos hac]
        have hb : ¬ (b.1 = c) := by
          intro h
          exact hab (le_of_eq (by rw [h, hac]))
        rw [List.filter_cons_of_neg (by simpa using hb),
          List.filter_cons_of_neg (by simpa using hb), ih, if_pos hac]
      · rw [if_neg hac]
        by_cases hbc : b.1 = c
        · rw [List.filter_cons_of_pos (by simpa using hbc),
            List.filter_cons_of_pos (by simpa using hbc), ih, if_neg hac]
        · rw [List.filter_cons_of_neg (by simpa using hbc),
            List.filter_cons_of_neg (by simpa using hbc), ih, if_neg hac]

lemma filter_score_insertionSort (c : ℚ) (l : List (ℚ × Section)) :
    (l.insertionSort scoreDesc).filter (fun x => x.1 = c) =
      l.filter (fun x => x.1 = c) := by
  induction l with
  | nil => rfl
  | cons a t ih =>
    rw [List.insertionSort, filter_score_orderedInsert]
    by_cases hac : a.1 = c
    · rw [if_pos hac, ih, List.filter_cons_of_pos (by simpa using hac)]
    · rw [if_neg hac, ih, List.filter_cons_of_neg (by simpa using hac)]

/-- C8: the list `query_faiss_index` returns is sorted by descending
similarity score — every adjacent pair satisfies
`score[i+1] ≤ score[i]` — and the sort is stable: for every score
value, the entries carrying it appear in the same order as in the
pre-sort `results` list (`queryBase`), i.e. insertion order. -/
theorem query_faiss_index_sorted_stable :
    ∀ (D : List ℚ) (I : List Nat) (metadata : List Section),
      List.Chain' scoreDesc (query_faiss_index D I metadata) ∧
      ∀ c : ℚ, (query_faiss_index D I metadata).filter (fun x => x.1 = c) =
        (queryBase D I metadata).filter (fun x => x.1 = c) := by
  intro D I metadata
  constructor
  · exact List.Pairwise.chain' (List.sorted_insertionSort scoreDesc _)
  · intro c
    exact filter_score_insertionSort c _

lemma dropWhile_eq_self_of_head {α : Type} {p : α → Bool} {l : List α}
    (h : ∀ c ∈ l.head?, ¬ p c) : List.dropWhile p l = l := by
  cases l with
  | nil => rfl
  | cons x t =>
    rw [List.dropWhile_cons, if_neg]
    simpa using h x rfl

lemma last_not_of_rdropWhile {α : Type} (p : α → Bool) (l : List α) :
    ∀ c ∈ (List.rdropWhile p l).getLast?, ¬ p c := by
  intro c hc
  by_cases hne : List.rdropWhile p l = []
  · rw [hne] at hc; simp at hc
  · have := List.rdropWhile_last_not (p := p) (l := l) hne
    rw [List.getLast?_eq_getLast _ hne] at hc
    simp only [Option.mem_def, Option.some_inj] at hc
    rw [← hc]
    exact this

lemma rdropWhile_eq_self_of_last {α : Type} {p : α → Bool} {l : List α}
    (h : ∀ c ∈ l.getLast?, ¬ p c) : List.rdropWhile p l = l := by
  rw [List.rdropWhile_eq_self_iff]
  intro hl
  have := h (l.getLast hl) (by rw [List.getLast?_eq_getLast _ hl]; rfl)
  simpa using this

lemma pyStripL_idem (l : List Char) : pyStripL (pyStripL l) = pyStripL l := by
  show List.rdropWhile isPyWS (List.dropWhile isPyWS (pyStripL l)) = pyStripL l
  rw [dropWhile_eq_self_of_head (pyStripL_head_not_ws l)]
  exact rdropWhile_eq_self_of_last (pyStripL_last_not_ws l)

lemma stripped_head_not_ws {l : List Char} (h : pyStripL l = l) :
    ∀ c ∈ l.head?, ¬ isPyWS c := by
  rw [← h]
  exact pyStripL_head_not_ws l

lemma stripped_last_not_ws {l : List Char} (h : pyStripL l = l) :
    ∀ c ∈ l.getLast?, ¬ isPyWS c := by
  rw [← h]
  exact pyStripL_last_not_ws l

lemma pyStripL_append_sep {a b : List Char}
    (ha : pyStripL a = a) (ha' : a ≠ []) (hb : pyStripL b = b) (hb' : b ≠ []) :
    pyStripL (a ++ ',' :: ' ' :: b) = a ++ ',' :: ' ' :: b := by
  unfold pyStripL
  rw [dropWhile_eq_self_of_head, rdropWhile_eq_self_of_last]
  · intro c hc
    rw [List.getLast?_append_of_ne_nil a (by simp : (',' :: ' ' :: b) ≠ [])] at hc
    have he : (',' :: ' ' :: b).getLast? = b.getLast? := by
      rw [show ',' :: ' ' :: b = [',', ' '] ++ b by rfl,
        List.getLast?_append_of_ne_nil [',', ' '] hb']
    rw [he] at hc
    exact stripped_last_not_ws hb c hc
  · intro c hc
    rw [List.head?_append_of_ne_nil _ ha'] at hc
    exact stripped_head_not_ws ha c hc

lemma combineFold_temp_stripped :
    ∀ (lines : List (List Char)),
      (∀ l ∈ lines, pyStripL l = l ∧ l ≠ []) →
      ∀ acc : List (List Char) × List Char, pyStripL acc.2 = acc.2 →
        pyStripL (lines.foldl combineStep acc).2 = (lines.foldl combineStep acc).2 := by
  intro lines
  induction lines with
  | nil => intro _ acc hacc; exact hacc
  | cons x t ih =>
    intro hl acc hacc
    rw [List.foldl_cons]
    apply ih (fun l hm => hl l (List.mem_cons_of_mem _ hm))
    unfold combineStep
    by_cases hterm : endsTerminal x
    · rw [if_pos hterm]
      by_cases h2 : acc.2 ≠ []
      · rw [if_pos h2]
        rfl
      · rw [if_neg h2]
        rfl
    · rw [if_neg hterm]
      by_cases h2 : acc.2 ≠ []
      · rw [if_pos h2]
        exact pyStripL_append_sep hacc h2 (hl x (List.mem_cons_self _ _)).1
          (hl x (List.mem_cons_self _ _)).2
      · rw [if_neg h2]
        exact (hl x (List.mem_cons_self _ _)).1

lemma flatten_intersperse_last (sep : List Char) :
    ∀ (xs : List (List Char)) (x : List Char),
      ∃ pre : List Char, ((xs ++ [x]).intersperse sep).flatten = pre ++ x := by
  intro xs
  induction xs with
  | nil => intro x; exact ⟨[], by simp⟩
  | cons a t ih =>
    intro x
    rcases ih x with ⟨pre, hpre⟩
    cases ht : t ++ [x] with
    | nil => exact absurd ht (by simp)
    | cons y s =>
      refine ⟨a ++ sep ++ pre, ?_⟩
      rw [List.cons_append, ht, List.intersperse_cons_cons, List.flatten_cons,
        List.flatten_cons, ← ht, hpre]
      simp [List.append_assoc]

lemma combineLinesList_stripped (l : List Char) :
    ∀ line ∈ combineLinesList l, pyStripL line = line ∧ line ≠ [] := by
  intro line hm
  unfold combineLinesList at hm
  rcases List.mem_filter.1 hm with ⟨hmap, hne⟩
  rcases List.mem_map.1 hmap with ⟨raw, _, rfl⟩
  exact ⟨pyStripL_idem _, by simpa using hne⟩

/-- C7: `combine_lines` never drops the trailing unterminated fragment:
whenever the accumulation loop finishes with a non-empty `temp`, that
fragment is flushed and appears (as a suffix) in the returned string. -/
theorem combine_lines_flushes_trailing :
    ∀ s : String,
      (combineFold (combineLinesList s.data)).2 ≠ [] →
      ∃ pre : List Char,
        (combine_lines s).data = pre ++ (combineFold (combineLinesList s.data)).2 := by
  intro s hne
  have hstr : pyStripL (combineFold (combineLinesList s.data)).2 =
      (combineFold (combineLinesList s.data)).2 :=
    combineFold_temp_stripped (combineLinesList s.data)
      (combineLinesList_stripped s.data) ([], []) rfl
  show ∃ pre, combine_linesL s.data = pre ++ _
  simp only [combine_linesL]
  rw [if_pos hne, hstr]
  exact flatten_intersperse_last [' '] _ _

/-- Closed witness for `combine_lines_flushes_trailing`: the input
`"a.\nrest of it"` leaves the fragment `"rest of it"` in `temp`, and the
result string ends with it. -/
theorem combine_lines_flushes_trailing_witness :
    (combineFold (combineLinesList ("a.\nrest of it").data)).2 ≠ [] ∧
    ∃ pre : List Char,
      (combine_lines "a.\nrest of it").data =
        pre ++ (combineFold (combineLinesList ("a.\nrest of it").data)).2 :=
  ⟨by decide, combine_lines_flushes_trailing "a.\nrest of it" (by decide)⟩

lemma collapseWS_cons_cons_ws_ws {c1 c2 : Char} (cs : List Char)
    (h1 : isPyWS c1) (h2 : isPyWS c2) :
    collapseWS (c1 :: c2 :: cs) = collapseWS (c2 :: cs) := by
  simp [collapseWS, h1, h2]

lemma collapseWS_cons_cons_ws_nws {c1 c2 : Char} (cs : List Char)
    (h1 : isPyWS c1) (h2 : ¬ isPyWS c2) :
    collapseWS (c1 :: c2 :: cs) = ' ' :: collapseWS (c2 :: cs) := by
  simp [collapseWS, h1, h2]

lemma collapseWS_cons_cons_nws {c1 c2 : Char} (cs : List Char)
    (h1 : ¬ isPyWS c1) :
    collapseWS (c1 :: c2 :: cs) = c1 :: collapseWS (c2 :: cs) := by
  simp [collapseWS, h1]

lemma mem_collapseWS : ∀ (l : List Char), ∀ c ∈ collapseWS l, c ∈ l ∨ c = ' ' := by
  intro l
  induction l using collapseWS.induct with
  | case1 => intro c hc; simp [collapseWS] at hc
  | case2 c0 h =>
    intro c hc
    simp only [collapseWS, h, if_true, List.mem_singleton] at hc
    exact Or.inr hc
  | case3 c0 h =>
    intro c hc
    simp only [collapseWS, h] at hc
    simp at hc
    exact Or.inl (by rw [hc]; exact List.mem_singleton.2 rfl)
  | case4 c1 c2 cs h1 h2 ih =>
    intro c hc
    rw [collapseWS_cons_cons_ws_ws cs h1 h2] at hc
    rcases ih c hc with h | h
    · exact Or.inl (List.mem_cons_of_mem _ h)
    · exact Or.inr h
  | case5 c1 c2 cs h1 h2 ih =>
    intro c hc
    rw [collapseWS_cons_cons_ws_nws cs h1 h2] at hc
    rcases List.mem_cons.1 hc with h | h
    · exact Or.inr h
    · rcases ih c h with h | h
      · exact Or.inl (List.mem_cons_of_mem _ h)
      · exact Or.inr h
  | case6 c1 c2 cs h1 ih =>
    intro c hc
    rw [collapseWS_cons_cons_nws cs h1] at hc
    rcases List.mem_cons.1 hc with h | h
    · exact Or.inl (by rw [h]; exact List.mem_cons_self _ _)
    · rcases ih c h with h | h
      · exact Or.inl (List.mem_cons_of_mem _ h)
      · exact Or.inr h

/-- No two adjacent whitespace characters. -/
def noAdjWS (a b : Char) : Prop := ¬ (isPyWS a ∧ isPyWS b)

lemma collapseWS_ws_eq_space :
    ∀ (l : List Char), ∀ c ∈ collapseWS l, isPyWS c → c = ' ' := by
  intro l
  induction l using collapseWS.induct with
  | case1 => intro c hc; simp [collapseWS] at hc
  | case2 c0 h =>
    intro c hc _
    simp only [collapseWS, h, if_true, List.mem_singleton] at hc
    exact hc
  | case3 c0 h =>
    intro c hc hw
    simp only [collapseWS, h] at hc
    simp at hc
    rw [hc] at hw
    exact absurd hw h
  | case4 c1 c2 cs h1 h2 ih =>
    intro c hc
    rw [collapseWS_cons_cons_ws_ws cs h1 h2] at hc
    exact ih c hc
  | case5 c1 c2 cs h1 h2 ih =>
    intro c hc hw
    rw [collapseWS_cons_cons_ws_nws cs h1 h2] at hc
    rcases List.mem_cons.1 hc with h | h
    · exact h
    · exact ih c h hw
  | case6 c1 c2 cs h1 ih =>
    intro c hc hw
    rw [collapseWS_cons_cons_nws cs h1] at hc
    rcases List.mem_cons.1 hc with h | h
    · rw [h] at hw; exact absurd hw h1
    · exact ih c h hw

lemma collapseWS_head_of_not_ws (c : Char) (cs : List Char) (h : ¬ isPyWS c) :
    (collapseWS (c :: cs)).head? = some c := by
  cases cs with
  | nil => simp [collapseWS, h]
  | cons c2 t => rw [collapseWS_cons_cons_nws t h]; rfl

lemma collapseWS_chain' : ∀ l : List Char, List.Chain' noAdjWS (collapseWS l) := by
  intro l
  induction l using collapseWS.induct with
  | case1 => simp [collapseWS]
  | case2 c0 h => simp [collapseWS, h]
  | case3 c0 h => simp only [collapseWS, h]; simp
  | case4 c1 c2 cs h1 h2 ih =>
    rw [collapseWS_cons_cons_ws_ws cs h1 h2]; exact ih
  | case5 c1 c2 cs h1 h2 ih =>
    rw [collapseWS_cons_cons_ws_nws cs h1 h2]
    refine List.chain'_cons'.2 ⟨?_, ih⟩
    intro y hy
    rw [collapseWS_head_of_not_ws c2 cs h2] at hy
    simp only [Option.mem_def, Option.some_inj] at hy
    rw [← hy]
    exact fun hp => h2 hp.2
  | case6 c1 c2 cs h1 ih =>
    rw [collapseWS_cons_cons_nws cs h1]
    refine List.chain'_cons'.2 ⟨?_, ih⟩
    intro y _
    exact fun hp => h1 hp.1

lemma collapseWS_eq_self :
    ∀ l : List Char, (∀ c ∈ l, isPyWS c → c = ' ') → List.Chain' noAdjWS l →
      collapseWS l = l := by
  intro l
  induction l using collapseWS.induct with
  | case1 => intro _ _; rfl
  | case2 c0 h =>
    intro hmem _
    have := hmem c0 (List.mem_singleton.2 rfl) h
    simp [collapseWS, h, this]
  | case3 c0 h =>
    intro _ _
    simp [collapseWS, h]
  | case4 c1 c2 cs h1 h2 _ =>
    intro _ hch
    exact absurd ⟨h1, h2⟩ (List.chain'_cons.1 hch).1
  | case5 c1 c2 cs h1 h2 ih =>
    intro hmem hch
    rw [collapseWS_cons_cons_ws_nws cs h1 h2,
      ih (fun c hc => hmem c (List.mem_cons_of_mem _ hc)) (List.chain'_cons.1 hch).2,
      hmem c1 (List.mem_cons_self _ _) h1]
  | case6 c1 c2 cs h1 ih =>
    intro hmem hch
    rw [collapseWS_cons_cons_nws cs h1,
      ih (fun c hc => hmem c (List.mem_cons_of_mem _ hc)) (List.chain'_cons.1 hch).2]

lemma collapseNLAux_nil_eq (run : List Char) :
    collapseNLAux run [] = if run.contains '\n' then [' '] else run.reverse := rfl

lemma collapseNLAux_cons_eq (run : List Char) (x : Char) (t : List Char) :
    collapseNLAux run (x :: t) =
      if isPyWS x then collapseNLAux (x :: run) t
      else (if run.contains '\n' then [' '] else run.reverse) ++
        x :: collapseNLAux [] t := rfl

lemma mem_collapseNLAux :
    ∀ (l run : List Char) (c : Char), c ∈ collapseNLAux run l →
      c ∈ run ∨ c ∈ l ∨ c = ' ' := by
  intro l
  induction l with
  | nil =>
    intro run c hc
    rw [collapseNLAux_nil_eq] at hc
    by_cases hn : run.contains '\n'
    · rw [if_pos hn] at hc
      exact Or.inr (Or.inr (List.mem_singleton.1 hc))
    · rw [if_neg hn] at hc
      exact Or.inl (List.mem_reverse.1 hc)
  | cons x t ih =>
    intro run c hc
    rw [collapseNLAux_cons_eq] at hc
    by_cases hx : isPyWS x
    · rw [if_pos hx] at hc
      rcases ih (x :: run) c hc with h | h | h
      · rcases List.mem_cons.1 h with h | h
        · exact Or.inr (Or.inl (by rw [h]; exact List.mem_cons_self _ _))
        · exact Or.inl h
      · exact Or.inr (Or.inl (List.mem_cons_of_mem _ h))
      · exact Or.inr (Or.inr h)
    · rw [if_neg hx] at hc
      rcases List.mem_append.1 hc with h | h
      · by_cases hn : run.contains '\n'
        · rw [if_pos hn] at h
          exact Or.inr (Or.inr (List.mem_singleton.1 h))
        · rw [if_neg hn] at h
          exact Or.inl (List.mem_reverse.1 h)
      · rcases List.mem_cons.1 h with h | h
        · exact Or.inr (Or.inl (by rw [h]; exact List.mem_cons_self _ _))
        · rcases ih [] c h with h' | h' | h'
          · simp at h'
          · exact Or.inr (Or.inl (List.mem_cons_of_mem _ h'))
          · exact Or.inr (Or.inr h')

lemma collapseNLAux_no_nl :
    ∀ (l run : List Char), '\n' ∉ run → '\n' ∉ l →
      collapseNLAux run l = run.reverse ++ l := by
  intro l
  induction l with
  | nil =>
    intro run hrun _
    have hb : run.contains '\n' = false := by
      rw [← Bool.not_eq_true]
      intro h
      exact hrun (List.mem_of_elem_eq_true h)
    rw [collapseNLAux_nil_eq, hb]
    simp
  | cons x t ih =>
    intro run hrun hl
    have hxn : x ≠ '\n' := fun h => hl (by rw [h]; exact List.mem_cons_self _ _)
    have htn : '\n' ∉ t := fun h => hl (List.mem_cons_of_mem _ h)
    rw [collapseNLAux_cons_eq]
    by_cases hx : isPyWS x
    · rw [if_pos hx]
      rw [ih (x :: run) (by
        intro h
        rcases List.mem_cons.1 h with h | h
        · exact hxn h.symm
        · exact hrun h) htn]
      rw [List.reverse_cons, List.append_assoc]
      rfl
    · have hb : run.contains '\n' = false := by
        rw [← Bool.not_eq_true]
        intro h
        exact hrun (List.mem_of_elem_eq_true h)
      rw [if_neg hx, hb, ih [] (by simp) htn]
      simp

lemma collapseNL_eq_self {l : List Char} (h : '\n' ∉ l) : collapseNL l = l := by
  unfold collapseNL
  rw [collapseNLAux_no_nl l [] (by simp) h]
  rfl

lemma pyStripL_within (l : List Char) : pyStripL l <:+: l :=
  List.IsInfix.trans ( List.IsPrefix.isInfix ( List.rdropWhile_prefix _ _))
    ( List.IsSuffix.isInfix (List.dropWhile_suffix _))

/-- C9: `clean_text` is idempotent. -/
theorem clean_text_idempotent :
    ∀ s : String, clean_text (clean_text s) = clean_text s := by
  have main : ∀ x : List Char, clean_textL (clean_textL x) = clean_textL x := by
    intro x
    have hsub : ∀ c ∈ clean_textL x, c ∈ collapseWS (collapseNL (removeBullets x)) :=
      fun c hc => (pyStripL_within _).sublist.subset hc
    have hws : ∀ c ∈ clean_textL x, isPyWS c → c = ' ' := fun c hc =>
      collapseWS_ws_eq_space _ c (hsub c hc)
    have hch : List.Chain' noAdjWS (clean_textL x) :=
      List.Chain'.infix (collapseWS_chain' _) (pyStripL_within _)
    have hnl : '\n' ∉ clean_textL x := by
      intro h
      have := hws '\n' h (by decide)
      exact absurd this (by decide)
    have hbul : ∀ c ∈ clean_textL x, ¬ isCleanBullet c := by
      intro c hc
      rcases mem_collapseWS _ c (hsub c hc) with h1 | h1
      · rcases mem_collapseNLAux _ [] c h1 with h2 | h2 | h2
        · simp at h2
        · have := (List.mem_filter.1 h2).2
          simpa using this
        · rw [h2]; decide
      · rw [h1]; decide
    have hrb : removeBullets (clean_textL x) = clean_textL x :=
      List.filter_eq_self.2 (fun c hc => decide_eq_true (hbul c hc))
    calc clean_textL (clean_textL x)
        = pyStripL (collapseWS (collapseNL (removeBullets (clean_textL x)))) := rfl
      _ = pyStripL (collapseWS (collapseNL (clean_textL x))) := by rw [hrb]
      _ = pyStripL (collapseWS (clean_textL x)) := by rw [collapseNL_eq_self hnl]
      _ = pyStripL (clean_textL x) := by rw [collapseWS_eq_self _ hws hch]
      _ = clean_textL x := pyStripL_idem _
  intro s
  exact congrArg String.mk (main s.data)

example : clean_text "  a •– b \n c  " = "a b c" := by decide
example : combine_lines "o often\nends here.\n- bullet" = "often ends here. bullet" := by decide
example : combine_lines "abc,\nxyz" = "abc, xyz" := by decide
